import Mathlib

/-!
Verification development for the skpm repository: scikit-learn-style
feature-extraction transformers for process-mining event logs
(Timestamp Feature Extractor, Resource Pool Extractor, Trace Aggregator).

The repository snapshot available here contains the notebook
`use_cases/time_features.ipynb`, the README, the docs and the packaging
files, but not the Python sources of the `skpm` package itself
(`skpm/event_feature_extraction/*`, `skpm/encoding/trace.py`).  The
transformers are therefore modelled from the specification (spec.md) and
from the behaviour documented in the notebook and README, as noted on
each definition.
-/

namespace Skpm

/-! ## Timestamp Feature Extractor -/

/-- Helper for `executionTime`: given the previous timestamp of the case,
emit, for every remaining event, the elapsed time since its predecessor. -/
def execAux : Int → List Int → List Int
  | _, [] => []
  | prev, t :: rest => (t - prev) :: execAux t rest

/-- Modelled from the spec: `execution_time` of the Timestamp Feature
Extractor — "elapsed time since the case's previous event (zero for the
first event in a case)".  The input is the list of the case's timestamps
in the given (timestamp) order. -/
def executionTime (ts : List Int) : List Int :=
  match ts with
  | [] => []
  | t :: rest => 0 :: execAux t rest

/-- Modelled from the spec: `accumulated_time` — "elapsed time since the
case's first event". -/
def accumulatedTime (ts : List Int) : List Int :=
  match ts with
  | [] => []
  | t :: rest => (t :: rest).map (fun x => x - t)

/-- Modelled from the spec: `remaining_time` — "elapsed time from this
event to the case's last event". -/
def remainingTime (ts : List Int) : List Int :=
  match ts with
  | [] => []
  | t :: rest => (t :: rest).map (fun x => (t :: rest).getLastD 0 - x)

/-! ## Trace Aggregator -/

/-- The distinct elements of a list, in first-occurrence order. -/
def firstOccurrences {α : Type} [DecidableEq α] : List α → List α
  | [] => []
  | a :: rest => a :: firstOccurrences (rest.filter (fun x => x ≠ a))
termination_by l => l.length
decreasing_by
  simp only [List.length_cons]
  exact Nat.lt_succ_of_le (List.length_filter_le _ _)

/-- A per-event feature row: one rational number per feature column. -/
abbrev Row := List ℚ

/-- Combine two rows componentwise. -/
def vecZip (f : ℚ → ℚ → ℚ) (a b : Row) : Row := List.zipWith f a b

/-- Modelled from the spec: the "sum" aggregation method — componentwise
sum of a case's rows. -/
def aggSum : List Row → Row
  | [] => []
  | r :: rest => rest.foldl (vecZip (· + ·)) r

/-- Modelled from the spec: the "mean" aggregation method — componentwise
sum divided by the number of rows of the case. -/
def aggMean (rows : List Row) : Row :=
  (aggSum rows).map (fun q => q / (rows.length : ℚ))

/-- Modelled from the spec: the "last" aggregation method. -/
def aggLast (rows : List Row) : Row := rows.getLastD []

/-- Modelled from the spec: the "max" aggregation method. -/
def aggMax : List Row → Row
  | [] => []
  | r :: rest => rest.foldl (vecZip max) r

/-- Modelled from the spec: the "min" aggregation method. -/
def aggMin : List Row → Row
  | [] => []
  | r :: rest => rest.foldl (vecZip min) r

/-- The enumerated aggregation methods of the Trace Aggregator. -/
def aggregationMethods : List String := ["mean", "sum", "last", "max", "min"]

/-- Dispatch on the configured aggregation method. -/
def aggRows (m : String) (rows : List Row) : Row :=
  if m = "mean" then aggMean rows
  else if m = "sum" then aggSum rows
  else if m = "last" then aggLast rows
  else if m = "max" then aggMax rows
  else aggMin rows

/-- Modelled from the spec: the Trace Aggregator — "given a feature table
with a case column and N feature columns, collapse each case's rows into
one row via a configurable aggregation method.  Output: one row per
distinct case identifier, preserving first-occurrence order of case
identifiers."  The input table is a list of (case identifier, feature
row) pairs. -/
def TraceAggregator (m : String) (xs : List (Nat × Row)) : List (Nat × Row) :=
  (firstOccurrences (xs.map Prod.fst)).map
    (fun c => (c, aggRows m ((xs.filter (fun p => p.1 = c)).map Prod.snd)))

/-! ## Resource Pool Extractor -/

/-- Modelled from the spec: the reserved unknown token for categories
unseen during fit.  The notebook documents the behaviour:
"SKPM throws a warning and replace it by a specical token `UNK`". -/
def UNK : String := "UNK"

/-- Modelled from the spec: validation of a categorical value against the
categories seen during fit — an unseen value is replaced by the reserved
[UNK] token and flagged with a (non-fatal) warning. -/
def checkUnseen (seen : List String) (x : String) : String × Bool :=
  if x ∈ seen then (x, false) else (UNK, true)

/-- Modelled from the spec: the fitted state of the Resource Pool
Extractor — the activities and resources seen during fit, the stored
resource-to-pool mapping, and the designated unknown pool label. -/
structure ResourcePoolExtractor where
  activities : List String
  resources : List String
  resourcePool : List (String × Nat)
  unknownPool : Nat

/-- Modelled from the spec: the co-occurrence profile of a resource —
for each activity seen during fit, how often the resource performed it
in the fit data (a list of (activity, resource) events). -/
def coOccurrence (events : List (String × String)) (acts : List String)
    (r : String) : List Nat :=
  acts.map (fun a => (events.filter (fun e => e.1 = a ∧ e.2 = r)).length)

/-- Modelled from the spec: clustering of a resource's co-occurrence
profile into one of `nPools` pools.  The spec leaves the algorithm open
("any standard unsupervised clustering algorithm ... is acceptable");
the essential contract is that the assignment is a deterministic
function of the random seed and the profile, with pool labels drawn
from a fixed set of `nPools` labels. -/
def clusterAssign (seed nPools : Nat) (profile : List Nat) : Nat :=
  if nPools = 0 then 0 else (profile.sum + seed) % nPools

/-- Modelled from the spec: fit of the Resource Pool Extractor — collect
the activities and resources of the fit data, build each resource's
co-occurrence profile, cluster the resources into pools, and store the
resource-to-pool mapping.  The unknown pool receives the fresh label
`nPools`. -/
def ResourcePoolExtractor.fit (seed nPools : Nat)
    (events : List (String × String)) : ResourcePoolExtractor :=
  let acts := firstOccurrences (events.map Prod.fst)
  let ress := firstOccurrences (events.map Prod.snd)
  { activities := acts
    resources := ress
    resourcePool :=
      ress.map (fun r => (r, clusterAssign seed nPools (coOccurrence events acts r)))
    unknownPool := nPools }

/-- Modelled from the spec: transform of one event by a fitted Resource
Pool Extractor — validate the activity and the resource against the fit
data, map the resource to its pool label, map an unseen resource to the
designated unknown pool, and report whether a warning was emitted.  The
function is total: no input raises an error. -/
def ResourcePoolExtractor.transformEvent (e : ResourcePoolExtractor)
    (act res : String) : Nat × Bool :=
  let ra := checkUnseen e.activities act
  let rr := checkUnseen e.resources res
  let pool :=
    if rr.2 then e.unknownPool
    else (e.resourcePool.lookup rr.1).getD e.unknownPool
  (pool, ra.2 || rr.2)

/-- Modelled from the spec: transform of a whole event table, with the
fitted state threaded through explicitly — the transform "is pure given
those parameters": it returns the outputs together with the (unchanged)
fitted state. -/
def ResourcePoolExtractor.transformS (e : ResourcePoolExtractor)
    (events : List (String × String)) :
    List (Nat × Bool) × ResourcePoolExtractor :=
  (events.map (fun ev => e.transformEvent ev.1 ev.2), e)

/-! ## Timestamp Feature Extractor: configuration and output schema -/

/-- Modelled from the spec: the supported feature names of the Timestamp
Feature Extractor (per-case features and per-event calendar features). -/
def supportedTimestampFeatures : List String :=
  ["execution_time", "accumulated_time", "remaining_time",
   "hour_of_day", "day_of_week", "day_of_month", "month",
   "norm_time_of_day"]

/-- The fitted state of the Timestamp Feature Extractor: the requested
(and validated) feature names. -/
structure TimestampExtractor where
  features : List String

/-- Modelled from the spec: conversion of a day count since the epoch to
a civil (year, month, day-of-month) date, for the per-event calendar
features. -/
def civilFromDays (z0 : Int) : Int × Int × Int :=
  let z := z0 + 719468
  let era := z / 146097
  let doe := z - era * 146097
  let yoe := (doe - doe / 1460 + doe / 36524 - doe / 146096) / 365
  let y := yoe + era * 400
  let doy := doe - (365 * yoe + yoe / 4 - yoe / 100)
  let mp := (5 * doy + 2) / 153
  let d := doy - (153 * mp + 2) / 5 + 1
  let m := mp + (if mp < 10 then 3 else -9)
  (y + (if m ≤ 2 then 1 else 0), m, d)

/-- Modelled from the spec: the per-event calendar features, derived
independently per event from an epoch-second timestamp.  The normalized
time-of-day feature is modelled as the time since midnight in seconds
(its normalization by the day length is a fixed rescaling). -/
def calendarFeature (f : String) (t : Int) : Int :=
  if f = "hour_of_day" then (t % 86400) / 3600
  else if f = "day_of_week" then (t / 86400 + 4) % 7
  else if f = "day_of_month" then (civilFromDays (t / 86400)).2.2
  else if f = "month" then (civilFromDays (t / 86400)).2.1
  else t % 86400

/-- The output column of one requested feature, over one case's
timestamps. -/
def featureColumn (f : String) (ts : List Int) : List Int :=
  if f = "execution_time" then executionTime ts
  else if f = "accumulated_time" then accumulatedTime ts
  else if f = "remaining_time" then remainingTime ts
  else ts.map (calendarFeature f)

/-- Modelled from the spec: fit of the Timestamp Feature Extractor —
unsupported feature names fail fast with a clear configuration error at
fit time, before any transform. -/
def TimestampExtractor.fit (features : List String) :
    Except String TimestampExtractor :=
  if ∀ f ∈ features, f ∈ supportedTimestampFeatures then
    Except.ok ⟨features⟩
  else Except.error "unsupported feature name"

/-- Modelled from the spec: transform of a fitted Timestamp Feature
Extractor over one case's timestamps — one output column per requested
feature.  The function is total: the transform path raises no error. -/
def TimestampExtractor.transform (e : TimestampExtractor)
    (ts : List Int) : List (List Int) :=
  e.features.map (fun f => featureColumn f ts)

/-- Transform with the fitted state threaded through explicitly, to
state purity: the fitted state is returned unchanged. -/
def TimestampExtractor.transformS (e : TimestampExtractor)
    (ts : List Int) : List (List Int) × TimestampExtractor :=
  (e.transform ts, e)

/-- A labeled output table: column names plus the columns. -/
structure LabeledTable where
  header : List String
  columns : List (List Int)

/-- Modelled from the spec: the output rendered as a labeled table —
"column names in the latter mode must be stable and predictable from
the requested feature set". -/
def TimestampExtractor.transformLabeled (e : TimestampExtractor)
    (ts : List Int) : LabeledTable :=
  { header := e.features, columns := e.transform ts }

/-! ### Supporting lemmas for the timestamp features -/

theorem execAux_length (prev : Int) (ts : List Int) :
    (execAux prev ts).length = ts.length := by
  induction ts generalizing prev with
  | nil => rfl
  | cons t rest ih => simp [execAux, ih]

theorem executionTime_length (ts : List Int) :
    (executionTime ts).length = ts.length := by
  cases ts with
  | nil => rfl
  | cons t rest => simp [executionTime, execAux_length]

theorem accumulatedTime_length (ts : List Int) :
    (accumulatedTime ts).length = ts.length := by
  cases ts with
  | nil => rfl
  | cons t rest => simp [accumulatedTime]

theorem execAux_getD (prev : Int) (ts : List Int) (i : Nat) (hi : i < ts.length) :
    (execAux prev ts).getD i 0 =
      ts.getD i 0 - (if i = 0 then prev else ts.getD (i - 1) 0) := by
  induction ts generalizing prev i with
  | nil => simp at hi
  | cons t rest ih =>
    cases i with
    | zero => simp [execAux]
    | succ j =>
      have hj : j < rest.length := Nat.lt_of_succ_lt_succ hi
      simp only [execAux, List.getD_cons_succ]
      rw [ih t j hj]
      cases j with
      | zero => simp
      | succ k => simp

theorem execAux_sum (prev : Int) (ts : List Int) :
    (execAux prev ts).sum = ts.getLastD prev - prev := by
  induction ts generalizing prev with
  | nil => simp [execAux]
  | cons t rest ih =>
    simp only [execAux, List.sum_cons, ih t, List.getLastD_cons]
    ring

theorem getLastD_map_sub (l : List Int) (a t₀ : Int) :
    ((a :: l).map (fun x => x - t₀)).getLastD 0 = (a :: l).getLastD 0 - t₀ := by
  induction l generalizing a with
  | nil => simp
  | cons b l' ih => simpa using ih b

/-- C1: For every case whose events are taken in the given (timestamp)
order, `execution_time` is 0 for the first event and the elapsed time
since the previous event for every later event, and `accumulated_time`
is the elapsed time since the first event; in particular timestamps
[00:00, 00:10, 00:30] (in minutes) yield execution_time [0,10,20] and
accumulated_time [0,10,30]. -/
theorem timestamp_execution_accumulated (ts : List Int) (i : Nat)
    (hi : i < ts.length) :
    (executionTime ts).getD i 0 =
        (if i = 0 then 0 else ts.getD i 0 - ts.getD (i - 1) 0) ∧
    (accumulatedTime ts).getD i 0 = ts.getD i 0 - ts.getD 0 0 ∧
    executionTime [0, 10, 30] = [0, 10, 20] ∧
    accumulatedTime [0, 10, 30] = [0, 10, 30] := by
  refine ⟨?_, ?_, by decide, by decide⟩
  · cases ts with
    | nil => simp at hi
    | cons t rest =>
      cases i with
      | zero => simp [executionTime]
      | succ j =>
        have hj : j < rest.length := Nat.lt_of_succ_lt_succ hi
        simp only [executionTime, List.getD_cons_succ]
        rw [execAux_getD t rest j hj]
        cases j with
        | zero => simp
        | succ k => simp
  · cases ts with
    | nil => simp at hi
    | cons t rest =>
      have hmem : i < ((t :: rest).map (fun x => x - t)).length := by
        simpa using hi
      simp only [accumulatedTime]
      rw [List.getD_eq_getElem _ _ hmem, List.getD_eq_getElem _ _ hi,
        List.getElem_map]
      simp

/-- Witness for C1 at the spec's example case. -/
theorem timestamp_execution_accumulated_witness :
    (1 < ([0, 10, 30] : List Int).length) ∧
    ((executionTime [0, 10, 30]).getD 1 0 =
        (if 1 = 0 then 0 else
          ([0, 10, 30] : List Int).getD 1 0 - ([0, 10, 30] : List Int).getD 0 0) ∧
      (accumulatedTime [0, 10, 30]).getD 1 0 =
        ([0, 10, 30] : List Int).getD 1 0 - ([0, 10, 30] : List Int).getD 0 0 ∧
      executionTime [0, 10, 30] = [0, 10, 20] ∧
      accumulatedTime [0, 10, 30] = [0, 10, 30]) :=
  ⟨by decide, timestamp_execution_accumulated [0, 10, 30] 1 (by decide)⟩

/-- C2: for a case with events in increasing timestamp order, the
`accumulated_time` sequence is non-decreasing and the sum of the
`execution_time` values equals the `accumulated_time` of the last
event. -/
theorem accumulated_monotone_execution_sum (ts : List Int)
    (hs : ts.Sorted (· ≤ ·)) :
    (accumulatedTime ts).Sorted (· ≤ ·) ∧
    (executionTime ts).sum = (accumulatedTime ts).getLastD 0 := by
  constructor
  · cases ts with
    | nil => simp [accumulatedTime]
    | cons t rest =>
      simp only [accumulatedTime]
      exact List.Pairwise.map _ (fun a b hab => by omega) hs
  · cases ts with
    | nil => rfl
    | cons t rest =>
      simp only [executionTime, accumulatedTime, List.sum_cons,
        execAux_sum, getLastD_map_sub]
      rw [List.getLastD_cons]
      ring

/-- Witness for C2 at the spec's example case. -/
theorem accumulated_monotone_execution_sum_witness :
    ([0, 10, 30] : List Int).Sorted (· ≤ ·) ∧
    ((accumulatedTime [0, 10, 30]).Sorted (· ≤ ·) ∧
      (executionTime [0, 10, 30]).sum =
        (accumulatedTime [0, 10, 30]).getLastD 0) :=
  ⟨by decide, accumulated_monotone_execution_sum [0, 10, 30] (by decide)⟩

/-! ### Supporting lemmas for the Trace Aggregator -/

theorem firstOccurrences_mem {α : Type} [DecidableEq α] (l : List α) (c : α) :
    c ∈ firstOccurrences l ↔ c ∈ l := by
  induction l using firstOccurrences.induct with
  | case1 => simp [firstOccurrences]
  | case2 a rest ih =>
    rw [firstOccurrences]
    simp only [List.mem_cons, ih, List.mem_filter, decide_eq_true_eq]
    constructor
    · rintro (h | ⟨h, _⟩) <;> simp [h]
    · rintro (h | h)
      · exact Or.inl h
      · by_cases hca : c = a
        · exact Or.inl hca
        · exact Or.inr ⟨h, hca⟩

theorem firstOccurrences_nodup {α : Type} [DecidableEq α] (l : List α) :
    (firstOccurrences l).Nodup := by
  induction l using firstOccurrences.induct with
  | case1 => simp [firstOccurrences]
  | case2 a rest ih =>
    rw [firstOccurrences]
    refine List.nodup_cons.mpr ⟨?_, ih⟩
    intro hmem
    rw [firstOccurrences_mem] at hmem
    simp [List.mem_filter] at hmem

theorem indexOf_filter_lt {α : Type} [DecidableEq α] (p : α → Bool)
    (l : List α) (x y : α) (hx : x ∈ l.filter p) (hy : y ∈ l.filter p)
    (hlt : (l.filter p).indexOf x < (l.filter p).indexOf y) :
    l.indexOf x < l.indexOf y := by
  induction l with
  | nil => simp at hx
  | cons c l' ih =>
    by_cases hc : p c
    · rw [List.filter_cons_of_pos hc] at hx hy hlt
      by_cases hxc : x = c
      · subst hxc
        have hyx : y ≠ x := by
          intro h
          subst h
          omega
        rw [List.indexOf_cons_self, List.indexOf_cons_ne _ (Ne.symm hyx)]
        exact Nat.succ_pos _
      · have hyc : y ≠ c := by
          intro h
          subst h
          rw [List.indexOf_cons_self] at hlt
          omega
        have hxc2 : x ≠ c := hxc
        rw [List.indexOf_cons_ne _ (Ne.symm hxc2),
          List.indexOf_cons_ne _ (Ne.symm hyc)] at hlt
        have hx' : x ∈ l'.filter p := by
          rcases List.mem_cons.mp hx with h | h
          · exact absurd h hxc
          · exact h
        have hy' : y ∈ l'.filter p := by
          rcases List.mem_cons.mp hy with h | h
          · exact absurd h hyc
          · exact h
        rw [List.indexOf_cons_ne _ (Ne.symm hxc2),
          List.indexOf_cons_ne _ (Ne.symm hyc)]
        exact Nat.succ_lt_succ (ih hx' hy' (Nat.lt_of_succ_lt_succ hlt))
    · rw [List.filter_cons_of_neg hc] at hx hy hlt
      have hxc : x ≠ c := by
        intro h
        subst h
        exact hc (List.of_mem_filter hx)
      have hyc : y ≠ c := by
        intro h
        subst h
        exact hc (List.of_mem_filter hy)
      rw [List.indexOf_cons_ne _ (Ne.symm hxc), List.indexOf_cons_ne _ (Ne.symm hyc)]
      exact Nat.succ_lt_succ (ih hx hy hlt)

theorem firstOccurrences_pairwise_indexOf {α : Type} [DecidableEq α]
    (l : List α) :
    (firstOccurrences l).Pairwise (fun a b => l.indexOf a < l.indexOf b) := by
  induction l using firstOccurrences.induct with
  | case1 => simp [firstOccurrences]
  | case2 a rest ih =>
    rw [firstOccurrences]
    refine List.pairwise_cons.mpr ⟨?_, ?_⟩
    · intro b hb
      have hbf : b ∈ rest.filter (fun x => x ≠ a) :=
        (firstOccurrences_mem _ _).mp hb
      have hba : b ≠ a := by
        have := List.of_mem_filter hbf
        simpa using this
      rw [List.indexOf_cons_self, List.indexOf_cons_ne _ (Ne.symm hba)]
      exact Nat.succ_pos _
    · refine List.Pairwise.imp_of_mem ?_ ih
      intro x y hxm hym hlt
      have hxf : x ∈ rest.filter (fun z => z ≠ a) :=
        (firstOccurrences_mem _ _).mp hxm
      have hyf : y ∈ rest.filter (fun z => z ≠ a) :=
        (firstOccurrences_mem _ _).mp hym
      have hxa : x ≠ a := by
        have := List.of_mem_filter hxf
        simpa using this
      have hya : y ≠ a := by
        have := List.of_mem_filter hyf
        simpa using this
      have hrest : rest.indexOf x < rest.indexOf y :=
        indexOf_filter_lt _ rest x y hxf hyf hlt
      rw [List.indexOf_cons_ne _ (Ne.symm hxa), List.indexOf_cons_ne _ (Ne.symm hya)]
      exact Nat.succ_lt_succ hrest

theorem traceAggregator_map_fst (m : String) (xs : List (Nat × Row)) :
    (TraceAggregator m xs).map Prod.fst = firstOccurrences (xs.map Prod.fst) := by
  simp [TraceAggregator, List.map_map, Function.comp_def]

/-- C8: a case containing exactly one event yields
execution_time = accumulated_time = remaining_time = 0 for that event. -/
theorem single_event_case_zero (t : Int) :
    executionTime [t] = [0] ∧ accumulatedTime [t] = [0] ∧
    remainingTime [t] = [0] := by
  refine ⟨rfl, ?_, ?_⟩ <;> simp [accumulatedTime, remainingTime]

theorem zipWith_add_zero_mul (a r : List ℚ) (h : a.length = r.length) :
    List.zipWith (fun x y => x + (0 : ℚ) * y) a r = a := by
  induction a generalizing r with
  | nil => simp
  | cons x a' ih =>
    cases r with
    | nil => simp at h
    | cons y r' =>
      rw [List.zipWith_cons_cons, ih r' (by simpa using h)]
      norm_num

theorem zipWith_add_mul_step (n : ℚ) (a r : List ℚ) :
    List.zipWith (fun x y => x + n * y) (List.zipWith (· + ·) a r) r =
      List.zipWith (fun x y => x + (n + 1) * y) a r := by
  induction a generalizing r with
  | nil => simp
  | cons x a' ih =>
    cases r with
    | nil => simp
    | cons y r' =>
      simp only [List.zipWith_cons_cons, List.cons.injEq]
      exact ⟨by ring, ih r'⟩

theorem foldl_vecZip_add_replicate (n : Nat) (a r : List ℚ)
    (h : a.length = r.length) :
    List.foldl (vecZip (· + ·)) a (List.replicate n r) =
      List.zipWith (fun x y => x + (n : ℚ) * y) a r := by
  induction n generalizing a with
  | zero => simpa using (zipWith_add_zero_mul a r h).symm
  | succ k ih =>
    rw [List.replicate_succ, List.foldl_cons]
    have hlen : (vecZip (· + ·) a r).length = r.length := by
      simp [vecZip, h]
    rw [ih (vecZip (· + ·) a r) hlen]
    show List.zipWith _ (List.zipWith (· + ·) a r) r = _
    rw [zipWith_add_mul_step]
    push_cast
    rfl

theorem aggRows_mean (rows : List Row) : aggRows "mean" rows = aggMean rows :=
  rfl

theorem aggRows_sum (rows : List Row) : aggRows "sum" rows = aggSum rows :=
  rfl

theorem aggSum_replicate (k : Nat) (r : Row) :
    aggSum (List.replicate (k + 1) r) = r.map (fun q => ((k : ℚ) + 1) * q) := by
  rw [List.replicate_succ]
  show List.foldl (vecZip (· + ·)) r (List.replicate k r) = _
  rw [foldl_vecZip_add_replicate k r r rfl, List.zipWith_same]
  refine List.map_congr_left ?_
  intro q _
  ring

/-- C4: the Trace Aggregator's output has exactly one row per distinct
case identifier of the input — its case column is duplicate-free and
contains precisely the input's case identifiers — and rows appear in
first-occurrence order of the case identifiers (the positions of their
first occurrences in the input are strictly increasing along the
output). -/
theorem trace_aggregator_one_row_per_case (m : String) (xs : List (Nat × Row)) :
    ((TraceAggregator m xs).map Prod.fst).Nodup ∧
    (∀ c, c ∈ (TraceAggregator m xs).map Prod.fst ↔ c ∈ xs.map Prod.fst) ∧
    ((TraceAggregator m xs).map Prod.fst).Pairwise
      (fun a b => (xs.map Prod.fst).indexOf a < (xs.map Prod.fst).indexOf b) := by
  rw [traceAggregator_map_fst]
  exact ⟨firstOccurrences_nodup _, fun c => firstOccurrences_mem _ c,
    firstOccurrences_pairwise_indexOf _⟩

/-- C5: on a case consisting of k identical feature rows, aggregation
method "mean" returns that row unchanged, and method "sum" returns k
times that row. -/
theorem aggregation_identical_rows (k : Nat) (r : Row) (hk : 0 < k) :
    aggRows "mean" (List.replicate k r) = r ∧
    aggRows "sum" (List.replicate k r) = r.map (fun q => (k : ℚ) * q) := by
  obtain ⟨k', rfl⟩ : ∃ j, k = j + 1 := ⟨k - 1, by omega⟩
  have hsum := aggSum_replicate k' r
  constructor
  · rw [aggRows_mean, aggMean, hsum, List.map_map, List.length_replicate]
    have hne : ((k' : ℚ) + 1) ≠ 0 := by positivity
    refine Eq.trans (List.map_congr_left ?_) (List.map_id r)
    intro q _
    push_cast
    field_simp
  · rw [aggRows_sum, hsum]
    refine List.map_congr_left ?_
    intro q _
    push_cast
    ring

/-- Witness for C5: two identical rows [1, 2]. -/
theorem aggregation_identical_rows_witness :
    0 < 2 ∧
    (aggRows "mean" (List.replicate 2 ([1, 2] : Row)) = [1, 2] ∧
      aggRows "sum" (List.replicate 2 ([1, 2] : Row)) =
        ([1, 2] : Row).map (fun q => (2 : ℚ) * q)) :=
  ⟨by decide, aggregation_identical_rows 2 [1, 2] (by decide)⟩

/-- C3: for every fitted Resource Pool Extractor, a resource that did
not occur in the fit data is mapped by transform to the designated
unknown pool with the warning flag set; transform is a total function,
so no error is raised. -/
theorem unseen_resource_maps_to_unknown_pool (e : ResourcePoolExtractor)
    (act res : String) (h : res ∉ e.resources) :
    e.transformEvent act res = (e.unknownPool, true) := by
  simp [ResourcePoolExtractor.transformEvent, checkUnseen, h]

/-- Witness for C3: a fitted extractor that saw only resource "r1",
transforming resource "r2". -/
theorem unseen_resource_maps_to_unknown_pool_witness :
    ("r2" ∉ (ResourcePoolExtractor.mk ["a"] ["r1"] [("r1", 0)] 1).resources) ∧
    (ResourcePoolExtractor.mk ["a"] ["r1"] [("r1", 0)] 1).transformEvent
        "a" "r2" =
      ((ResourcePoolExtractor.mk ["a"] ["r1"] [("r1", 0)] 1).unknownPool,
        true) :=
  ⟨by decide,
    unseen_resource_maps_to_unknown_pool _ "a" "r2" (by decide)⟩

/-- C10: the reserved unknown token of the Resource Pool Extractor is
the literal string "UNK", and the substitution-with-warning behaviour is
triggered by an unseen activity label as well, not only by an unseen
resource identifier. -/
theorem unknown_token_is_UNK_and_unseen_activity_warns
    (seen : List String) (act : String) (h : act ∉ seen)
    (e : ResourcePoolExtractor) (res : String) (ha : act ∉ e.activities) :
    UNK = "UNK" ∧ checkUnseen seen act = ("UNK", true) ∧
    (e.transformEvent act res).2 = true := by
  refine ⟨rfl, ?_, ?_⟩
  · simp [checkUnseen, h, UNK]
  · simp [ResourcePoolExtractor.transformEvent, checkUnseen, ha]

/-- Witness for C10: activity "y" unseen by an extractor that saw only
activity "a" and resource "r1". -/
theorem unknown_token_is_UNK_and_unseen_activity_warns_witness :
    ("y" ∉ ["x"]) ∧
    ("y" ∉ (ResourcePoolExtractor.mk ["a"] ["r1"] [("r1", 0)] 1).activities) ∧
    (UNK = "UNK" ∧ checkUnseen ["x"] "y" = ("UNK", true) ∧
      ((ResourcePoolExtractor.mk ["a"] ["r1"] [("r1", 0)] 1).transformEvent
          "y" "r1").2 = true) :=
  ⟨by decide, by decide,
    unknown_token_is_UNK_and_unseen_activity_warns ["x"] "y" (by decide)
      _ "r1" (by decide)⟩

/-- C6: a requested feature name outside the supported set makes the
Timestamp Feature Extractor fail with a clear configuration error at
fit time; the transform path is total and never the first to raise —
a fitted extractor's transform always returns one column per requested
feature. -/
theorem unsupported_feature_fails_at_fit (fs : List String) (f : String)
    (hf : f ∈ fs) (hns : f ∉ supportedTimestampFeatures) :
    TimestampExtractor.fit fs = Except.error "unsupported feature name" ∧
    ∀ (e : TimestampExtractor) (ts : List Int),
      (e.transform ts).length = e.features.length := by
  constructor
  · rw [TimestampExtractor.fit, if_neg]
    intro hall
    exact hns (hall f hf)
  · intro e ts
    simp [TimestampExtractor.transform]

/-- Witness for C6: the unsupported feature name "foo". -/
theorem unsupported_feature_fails_at_fit_witness :
    ("foo" ∈ ["foo"]) ∧ ("foo" ∉ supportedTimestampFeatures) ∧
    TimestampExtractor.fit ["foo"] =
      Except.error "unsupported feature name" ∧
    ((TimestampExtractor.mk ["execution_time"]).transform [0, 10]).length =
      (TimestampExtractor.mk ["execution_time"]).features.length :=
  ⟨by decide, by decide,
    (unsupported_feature_fails_at_fit ["foo"] "foo" (by decide)
      (by decide)).1,
    (unsupported_feature_fails_at_fit ["foo"] "foo" (by decide)
      (by decide)).2 (TimestampExtractor.mk ["execution_time"]) [0, 10]⟩

/-- C7: in labeled-table mode the column names are a fixed function of
the requested feature set — they equal the requested feature list, do
not depend on the transformed data, and are identical across calls. -/
theorem column_names_stable (e : TimestampExtractor) (ts₁ ts₂ : List Int) :
    (e.transformLabeled ts₁).header = e.features ∧
    (e.transformLabeled ts₁).header = (e.transformLabeled ts₂).header :=
  ⟨rfl, rfl⟩

/-- C9: each component's transform is pure given the fitted parameters —
it returns the fitted state unchanged and equal inputs give equal
outputs — and the resource-pool clustering is a deterministic function
of the seed and configuration, with every stored pool label drawn from
the configured number of pools. -/
theorem transform_pure_and_clustering_deterministic (seed nPools : Nat)
    (evs xs : List (String × String)) (tse : TimestampExtractor)
    (ts : List Int) (hn : 0 < nPools) :
    ((ResourcePoolExtractor.fit seed nPools evs).transformS xs).2 =
      ResourcePoolExtractor.fit seed nPools evs ∧
    (tse.transformS ts).2 = tse ∧
    (∀ ys, xs = ys →
      (ResourcePoolExtractor.fit seed nPools evs).transformS xs =
        (ResourcePoolExtractor.fit seed nPools evs).transformS ys) ∧
    ∀ pr ∈ (ResourcePoolExtractor.fit seed nPools evs).resourcePool,
      pr.2 < nPools := by
  refine ⟨rfl, rfl, fun ys h => by rw [h], ?_⟩
  intro pr hpr
  simp only [ResourcePoolExtractor.fit, List.mem_map] at hpr
  obtain ⟨r, _, rfl⟩ := hpr
  simp only [clusterAssign, if_neg (Nat.pos_iff_ne_zero.mp hn)]
  exact Nat.mod_lt _ hn

/-- Witness for C9: one pool, one fit event, empty transform input. -/
theorem transform_pure_and_clustering_deterministic_witness :
    0 < 1 ∧
    ((ResourcePoolExtractor.fit 0 1 [("a", "r")]).transformS []).2 =
      ResourcePoolExtractor.fit 0 1 [("a", "r")] :=
  ⟨by decide,
    (transform_pure_and_clustering_deterministic 0 1 [("a", "r")] []
      (TimestampExtractor.mk []) [] (by decide)).1⟩

end Skpm
